import Mathlib

/-!
Verification of the speech/music classification pipeline in `src/sound.c`
(podcastgen).  The pipeline stages are embedded shallowly:

* `calculate_rms`      — RMS extractor (`sound.c`, lines 38–59), over `ℝ`
* `featLoop`, `meanOfBlock`, `varianceOfBlock`, `normVarianceOfBlock`,
  `mlerOfBlock`, `calculate_features_mler`
                       — feature aggregator (`sound.c`, lines 61–106), over `ℚ`
* `classify_segments`  — classifier (`sound.c`, lines 108–116)
* `average_musicness`  — smoother (`sound.c`, lines 118–134); the scratch
  buffer is `malloc`ed and never initialised, so its initial contents are an
  explicit parameter `junk`
* `phase1` / `mergeStep` / `mergedPreGrowth` / `merge_segments_ret`
                       — segment merger (`sound.c`, lines 136–199), modelling
  the run detection pass, the merge pass (before boundary growth) and the
  returned counter; the caller-provided `merged_segments[0].is_music` initial
  content is an explicit parameter `junk`.
-/

namespace PodcastGen

/-- Length of the RMS calculation frames in milliseconds (`sound.c` line 27). -/
def RMS_FRAME_DURATION : ℕ := 20

/-- `LOW_ENERGY_COEFFICIENT` (`sound.c` line 35). -/
def LOW_ENERGY_COEFFICIENT : ℚ := 1/5

/-- `UPPER_MUSIC_THRESHOLD` (`sound.c` line 36): MLER below this value means
the one-second frame is classified as music. -/
def UPPER_MUSIC_THRESHOLD : ℚ := 0

/-- RMS extractor (`calculate_rms`, `sound.c` lines 38–59).  Frame `j` reads
up to `framesInRmsFrame` consecutive samples starting at `j*framesInRmsFrame`
(the final frame may be short, and a frame past the end of the stream reads
nothing, giving energy `sqrt 0 = 0`), sums their squares and divides by the
configured frame duration in milliseconds before taking the square root. -/
noncomputable def calculate_rms (samples : List ℝ) (framesInRmsFrame rmsFrameCount : ℕ) :
    List ℝ :=
  (List.range rmsFrameCount).map (fun j =>
    Real.sqrt ((((samples.drop (j * framesInRmsFrame)).take framesInRmsFrame).map
      (fun s => s ^ 2)).sum / (RMS_FRAME_DURATION : ℝ)))

/-- Modelled from the spec: `signum` is defined in `util.c`, which is not among
the sources; the spec states `sign(x) ∈ {−1, 0, +1}` (the usual sign). -/
def signum (x : ℚ) : ℚ :=
  if x < 0 then -1 else if x = 0 then 0 else 1

/-- Mean RMS of a long-frame block (`sound.c` lines 81–84): the block's sum
divided by `RMS_FRAMES_IN_LONG_FRAME` (the parameter `B`). -/
def meanOfBlock (block : List ℚ) (B : ℕ) : ℚ := block.sum / B

/-- The inner feature loop of `calculate_features` (`sound.c` lines 89–93).
The accumulator pair is `(variance_difference_sum, mler)`.  Note that the C
loop body adds `pow(rms[i] - rms_sum, 2)` to `variance_difference_sum` twice
(lines 90 and 92). -/
def featLoop (block : List ℚ) (rmsSum lowthres : ℚ) : ℚ × ℚ :=
  block.foldl
    (fun acc v =>
      (acc.1 + (v - rmsSum) ^ 2 + (v - rmsSum) ^ 2, acc.2 + (signum (lowthres - v) + 1)))
    (0, 0)

/-- `variance_rms` of a block (`sound.c` line 94). -/
def varianceOfBlock (block : List ℚ) (B : ℕ) : ℚ :=
  (featLoop block block.sum (LOW_ENERGY_COEFFICIENT * meanOfBlock block B)).1 / B

/-- `norm_variance_rms` of a block (`sound.c` line 95). -/
def normVarianceOfBlock (block : List ℚ) (B : ℕ) : ℚ :=
  varianceOfBlock block B / meanOfBlock block B

/-- `mler` of a block (`sound.c` lines 91, 96): the accumulated
`signum(lowthres - rms[i]) + 1` divided by `2 * RMS_FRAMES_IN_LONG_FRAME`. -/
def mlerOfBlock (block : List ℚ) (B : ℕ) : ℚ :=
  (featLoop block block.sum (LOW_ENERGY_COEFFICIENT * meanOfBlock block B)).2 / (2 * B)

/-- The contiguous block of `B` RMS values owned by long frame `lf`
(`sound.c` lines 81, 89, 104: `start_rms_frame` advances by
`RMS_FRAMES_IN_LONG_FRAME` per long frame). -/
def blockOf (rms : List ℚ) (B lf : ℕ) : List ℚ := (rms.drop (lf * B)).take B

/-- The per-long-frame MLER sequence computed by `calculate_features`
(`sound.c` lines 70–105), the only feature consumed downstream. -/
def calculate_features_mler (rms : List ℚ) (B nLong : ℕ) : List ℚ :=
  (List.range nLong).map (fun lf => mlerOfBlock (blockOf rms B lf) B)

/-- Classifier (`classify_segments`, `sound.c` lines 108–116):
`is_music[i] = (mler[i] <= UPPER_MUSIC_THRESHOLD)`. -/
def classify_segments (mler : List ℚ) : List Bool :=
  mler.map (fun m => decide (m ≤ UPPER_MUSIC_THRESHOLD))

/-- Number of `true` labels among `is_music[i-3 .. i+3]` (the seven-term sum
in `sound.c` line 124; booleans are summed as integers). -/
def windowCount (labels : List Bool) (i : ℕ) : ℕ :=
  ((labels.drop (i - 3)).take 7).count true

/-- The value stored by the interior smoothing loop (`sound.c` line 124):
`rint((sum of the 7 labels)/5.0)` converted to `bool` (nonzero is `true`).
`rint` rounds to nearest; `sum/5` never lies exactly halfway between
integers for `sum ≤ 7`, so Mathlib's `round` agrees with `rint` here. -/
def smoothInterior (labels : List Bool) (i : ℕ) : Bool :=
  decide ((round ((windowCount labels i : ℚ) / 5) : ℤ) ≠ 0)

/-- Final contents of the scratch buffer `music_second_pass` after all writes
of `average_musicness` (`sound.c` lines 119–129), with later writes
overriding earlier ones: indices `N`, `N-1`, `N-2` are written `false` last;
the loop writes indices `3 ≤ i ≤ N-4`; indices `0`, `1`, `2` are written
`true` first; every other index keeps the uninitialised `malloc` content,
modelled by the parameter `junk`. -/
def scratchVal (labels : List Bool) (junk : ℕ → Bool) (i : ℕ) : Bool :=
  if i = labels.length then false
  else if i = labels.length - 1 then false
  else if i = labels.length - 2 then false
  else if 3 ≤ i ∧ i + 4 ≤ labels.length then smoothInterior labels i
  else if i ≤ 2 then true
  else junk i

/-- Smoother (`average_musicness`, `sound.c` lines 118–134): the scratch
buffer is copied back over `is_music[0 .. N-1]`. -/
def average_musicness (labels : List Bool) (junk : ℕ → Bool) : List Bool :=
  (List.range labels.length).map (scratchVal labels junk)

/-- The `segment` struct of `sound.h`: start and end in long-frame units and
a music/speech label.  The C fields are `int`s, hence `Int`. -/
structure Segment where
  startframe : Int
  endframe : Int
  is_music : Bool
  deriving DecidableEq, Repr

/-- Run-detection loop of `merge_segments` (`sound.c` lines 141–154) for
frames `1, 2, ...`: a matching label extends the current run's end, a
differing label closes the current run and opens a new one at `lf`. -/
def runsAux : List Bool → Int → List Segment → Segment → List Segment
  | [], _, acc, cur => acc ++ [cur]
  | b :: rest, lf, acc, cur =>
    if b = cur.is_music then
      runsAux rest (lf + 1) acc { cur with endframe := cur.endframe + 1 }
    else
      runsAux rest (lf + 1) (acc ++ [cur]) ⟨lf, lf, b⟩

/-- Phase 1 of `merge_segments` (`sound.c` lines 139–154).  The first run is
initialised as `{0, 0, true}` at `long_frame == 0` regardless of the actual
first label. -/
def phase1 : List Bool → List Segment
  | [] => []
  | _ :: rest => runsAux rest 1 [] ⟨0, 0, true⟩

/-- One step of phase 2 of `merge_segments` (`sound.c` lines 166–175) for
`seg ≥ 1`.  The state is `(written merged segments, current merged segment)`.
A run with `endframe - startframe < 10` is absorbed (only the current merged
segment's end is extended); a run whose label equals the current merged
segment's label is absorbed; any other run is pushed as a new merged
segment. -/
def mergeStep (st : List Segment × Segment) (s : Segment) : List Segment × Segment :=
  if s.endframe - s.startframe < 10 then (st.1, { st.2 with endframe := s.endframe })
  else if s.is_music = st.2.is_music then (st.1, { st.2 with endframe := s.endframe })
  else (st.1 ++ [st.2], s)

/-- The first merged segment (`sound.c` lines 160–165): start and end are
copied from the first run; `is_music` is written `false` only when
`has_intro` holds — otherwise the field keeps whatever the caller-provided
storage held, modelled by the parameter `junk`. -/
def initMerged (r0 : Segment) (has_intro junk : Bool) : Segment :=
  ⟨r0.startframe, r0.endframe, if has_intro then false else junk⟩

/-- The merged segments written by phase 2 of `merge_segments`
(`sound.c` lines 158–176), before boundary growth.  The phase-2 loop runs
`seg` from `0` to `current_segment - 1`, so the last detected run
(`segments[current_segment]`) is never processed: the fold consumes
`(phase1 labels).dropLast`.  With fewer than two runs the loop body never
executes and nothing is written. -/
def mergedPreGrowth (labels : List Bool) (has_intro junk : Bool) : List Segment :=
  match (phase1 labels).dropLast with
  | [] => []
  | r0 :: rest =>
    let st := rest.foldl mergeStep ([], initMerged r0 has_intro junk)
    st.1 ++ [st.2]

/-- The value returned by `merge_segments` (`sound.c` line 198): the final
`current_merged_segment` counter, which is incremented only when a new merged
segment is pushed, i.e. the number of segments moved into the written prefix
ahead of the current one. -/
def merge_segments_ret (labels : List Bool) (has_intro junk : Bool) : ℕ :=
  match (phase1 labels).dropLast with
  | [] => 0
  | r0 :: rest => (rest.foldl mergeStep ([], initMerged r0 has_intro junk)).1.length

/-- `segs` tiles the half-open interval `[lo, hi)` of long-frame indices:
the segments appear in order, each covers `[startframe, endframe]` with
`startframe ≤ endframe`, consecutive segments are contiguous, the first
starts at `lo` and the last ends at `hi - 1`. -/
def tiles : List Segment → Int → Int → Prop
  | [], lo, hi => lo = hi
  | s :: rest, lo, hi => s.startframe = lo ∧ lo ≤ s.endframe ∧ tiles rest (s.endframe + 1) hi

/-- Start frame of the last detected run (the run phase 2 never processes). -/
def lastRunStart (labels : List Bool) : Int :=
  ((phase1 labels).getLastD ⟨0, 0, true⟩).startframe

/-- The variance accumulator claimed by the spec sentence behind C3: each
squared deviation from the block's raw energy sum counted once, divided by
the block size. -/
def varianceClaimed (block : List ℚ) (B : ℕ) : ℚ :=
  (block.map (fun v => (v - block.sum) ^ 2)).sum / B

theorem featLoop_go (block : List ℚ) (rmsSum lowthres : ℚ) (a : ℚ × ℚ) :
    block.foldl
      (fun acc v =>
        (acc.1 + (v - rmsSum) ^ 2 + (v - rmsSum) ^ 2, acc.2 + (signum (lowthres - v) + 1)))
      a =
    (a.1 + 2 * (block.map (fun v => (v - rmsSum) ^ 2)).sum,
     a.2 + (block.map (fun v => signum (lowthres - v) + 1)).sum) := by
  induction block generalizing a with
  | nil => simp
  | cons x xs ih =>
    simp only [List.foldl_cons, List.map_cons, List.sum_cons, ih]
    refine Prod.ext ?_ ?_ <;> simp <;> ring

theorem featLoop_fst (block : List ℚ) (rmsSum lowthres : ℚ) :
    (featLoop block rmsSum lowthres).1 = 2 * (block.map (fun v => (v - rmsSum) ^ 2)).sum := by
  simpa using congrArg Prod.fst (featLoop_go block rmsSum lowthres (0, 0))

theorem featLoop_snd (block : List ℚ) (rmsSum lowthres : ℚ) :
    (featLoop block rmsSum lowthres).2 = (block.map (fun v => signum (lowthres - v) + 1)).sum := by
  simpa using congrArg Prod.snd (featLoop_go block rmsSum lowthres (0, 0))

/-- C3 (amended): `calculate_features` accumulates the squared deviation of
each RMS value from the block's raw energy sum TWICE per value (the loop body
at `sound.c` lines 90 and 92 both add `pow(rms[i] - rms_sum, 2)`), so
`variance` is twice the once-counted sum of squared deviations divided by the
block size, and `normalized_variance` is `variance` divided by the block's
mean RMS. -/
theorem variance_is_doubled_deviation_from_sum (block : List ℚ) (B : ℕ) :
    varianceOfBlock block B = 2 * (block.map (fun v => (v - block.sum) ^ 2)).sum / B ∧
    normVarianceOfBlock block B = varianceOfBlock block B / meanOfBlock block B := by
  refine ⟨?_, rfl⟩
  rw [varianceOfBlock, featLoop_fst]

/-- C3 counterexample: on the block `[1, 0]` with block size 2 the code's
variance is `1` while the claimed once-counted formula gives `1/2`. -/
theorem variance_counterexample :
    varianceOfBlock [1, 0] 2 = 1 ∧ varianceClaimed [1, 0] 2 = 1/2 ∧
    varianceOfBlock [1, 0] 2 ≠ varianceClaimed [1, 0] 2 := by
  refine ⟨?_, ?_, ?_⟩ <;> norm_num [varianceOfBlock, varianceClaimed, featLoop, signum]

theorem signum_add_one_mem (x : ℚ) : 0 ≤ signum x + 1 ∧ signum x + 1 ≤ 2 := by
  unfold signum
  split_ifs <;> norm_num

theorem sum_nonneg_le_two_mul (l : List ℚ) (f : ℚ → ℚ)
    (h : ∀ x, 0 ≤ f x ∧ f x ≤ 2) :
    0 ≤ (l.map f).sum ∧ (l.map f).sum ≤ 2 * l.length := by
  induction l with
  | nil => simp
  | cons x xs ih =>
    obtain ⟨h1, h2⟩ := h x
    obtain ⟨ih1, ih2⟩ := ih
    constructor
    · simpa using add_nonneg h1 ih1
    · simp only [List.map_cons, List.sum_cons, List.length_cons]
      push_cast
      linarith

/-- C8: the code computes each block's MLER as the sum over the block of
`signum(lowthres - v) + 1` (with `lowthres = LOW_ENERGY_COEFFICIENT` times
the block's mean) divided by `2 * RMS_FRAMES_IN_LONG_FRAME`, and every MLER
value lies in `[0, 1]`. -/
theorem mler_formula_and_range (block : List ℚ) (B : ℕ) (hB : 0 < B)
    (hlen : block.length = B) :
    mlerOfBlock block B =
      (block.map (fun v => signum (LOW_ENERGY_COEFFICIENT * meanOfBlock block B - v) + 1)).sum /
        (2 * B) ∧
    0 ≤ mlerOfBlock block B ∧ mlerOfBlock block B ≤ 1 := by
  have hform : mlerOfBlock block B =
      (block.map (fun v => signum (LOW_ENERGY_COEFFICIENT * meanOfBlock block B - v) + 1)).sum /
        (2 * B) := by
    rw [mlerOfBlock, featLoop_snd]
  have hbounds := sum_nonneg_le_two_mul block
    (fun v => signum (LOW_ENERGY_COEFFICIENT * meanOfBlock block B - v) + 1)
    (fun x => signum_add_one_mem _)
  obtain ⟨hs0, hs2⟩ := hbounds
  have hBpos : (0 : ℚ) < 2 * B := by
    have : (0 : ℚ) < (B : ℚ) := by exact_mod_cast hB
    linarith
  refine ⟨hform, ?_, ?_⟩
  · rw [hform]
    exact div_nonneg hs0 (le_of_lt hBpos)
  · rw [hform, div_le_one hBpos]
    calc (block.map (fun v => signum (LOW_ENERGY_COEFFICIENT * meanOfBlock block B - v) + 1)).sum
        ≤ 2 * block.length := hs2
      _ = 2 * B := by rw [hlen]

theorem tiles_snoc_iff (L : List Segment) (s : Segment) (lo hi : Int) :
    tiles (L ++ [s]) lo hi ↔
      tiles L lo s.startframe ∧ s.startframe ≤ s.endframe ∧ hi = s.endframe + 1 := by
  induction L generalizing lo with
  | nil =>
    simp only [List.nil_append, tiles]
    constructor
    · rintro ⟨h1, h2, h3⟩
      exact ⟨h1.symm, by omega, by omega⟩
    · rintro ⟨h1, h2, h3⟩
      exact ⟨h1.symm, by omega, by omega⟩
  | cons a L ih =>
    simp only [List.cons_append, tiles, List.append_eq, ih]
    tauto

theorem runsAux_tiles (rest : List Bool) (lf : Int) (acc : List Segment) (cur : Segment)
    (h : tiles (acc ++ [cur]) 0 lf) (hi : Int) (hhi : hi = lf + rest.length) :
    tiles (runsAux rest lf acc cur) 0 hi := by
  induction rest generalizing lf acc cur hi with
  | nil =>
    rw [runsAux]
    have : hi = lf := by simpa using hhi
    rw [this]
    exact h
  | cons b r ih =>
    rw [runsAux]
    rw [tiles_snoc_iff] at h
    obtain ⟨hacc, hse, hlf⟩ := h
    by_cases hb : b = cur.is_music
    · rw [if_pos hb]
      refine ih (lf + 1) acc { cur with endframe := cur.endframe + 1 } ?_ hi ?_
      · rw [tiles_snoc_iff]
        refine ⟨hacc, ?_, ?_⟩
        · show cur.startframe ≤ cur.endframe + 1
          omega
        · show lf + 1 = cur.endframe + 1 + 1
          omega
      · rw [hhi, List.length_cons]
        push_cast
        ring
    · rw [if_neg hb]
      refine ih (lf + 1) (acc ++ [cur]) ⟨lf, lf, b⟩ ?_ hi ?_
      · rw [tiles_snoc_iff]
        refine ⟨?_, le_refl lf, rfl⟩
        rw [tiles_snoc_iff]
        exact ⟨hacc, hse, hlf⟩
      · rw [hhi, List.length_cons]
        push_cast
        ring

theorem phase1_tiles (labels : List Bool) (h : labels ≠ []) :
    tiles (phase1 labels) 0 (labels.length : ℤ) := by
  rcases labels with _ | ⟨b, rest⟩
  · exact absurd rfl h
  · rw [phase1]
    refine runsAux_tiles rest 1 [] ⟨0, 0, true⟩ ?_ _ ?_
    · rw [tiles_snoc_iff]
      exact ⟨rfl, le_refl 0, by norm_num⟩
    · rw [List.length_cons]
      push_cast
      ring

theorem foldl_mergeStep_tiles (rs : List Segment) (acc : List Segment) (cur : Segment)
    (p q : Int) (h1 : tiles (acc ++ [cur]) 0 p) (h2 : tiles rs p q) :
    tiles ((rs.foldl mergeStep (acc, cur)).1 ++ [(rs.foldl mergeStep (acc, cur)).2]) 0 q := by
  induction rs generalizing acc cur p with
  | nil =>
    rw [tiles] at h2
    rw [← h2]
    exact h1
  | cons s r ih =>
    rw [tiles] at h2
    obtain ⟨hs, hps, hrest⟩ := h2
    rw [tiles_snoc_iff] at h1
    obtain ⟨hacc, hce, hpe⟩ := h1
    rw [List.foldl_cons, mergeStep]
    split_ifs with hlen hlbl
    · refine ih acc { cur with endframe := s.endframe } (s.endframe + 1) ?_ hrest
      rw [tiles_snoc_iff]
      refine ⟨hacc, ?_, rfl⟩
      show cur.startframe ≤ s.endframe
      omega
    · refine ih acc { cur with endframe := s.endframe } (s.endframe + 1) ?_ hrest
      rw [tiles_snoc_iff]
      refine ⟨hacc, ?_, rfl⟩
      show cur.startframe ≤ s.endframe
      omega
    · refine ih (acc ++ [cur]) s (s.endframe + 1) ?_ hrest
      rw [tiles_snoc_iff]
      refine ⟨?_, by omega, rfl⟩
      rw [tiles_snoc_iff]
      exact ⟨hacc, hce, by omega⟩

theorem tiles_countP_zero (L : List Segment) (lo hi : Int) (h : tiles L lo hi) (i : Int)
    (hilt : i < lo) :
    L.countP (fun s => decide (s.startframe ≤ i) && decide (i ≤ s.endframe)) = 0 := by
  induction L generalizing lo with
  | nil => rfl
  | cons s r ih =>
    rw [tiles] at h
    obtain ⟨hs, hse, hr⟩ := h
    rw [List.countP_cons]
    have hnot : ¬ (s.startframe ≤ i) := by omega
    rw [ih (s.endframe + 1) hr (by omega)]
    simp [hnot]

theorem tiles_countP_one (L : List Segment) (lo hi : Int) (h : tiles L lo hi) (i : Int)
    (h1 : lo ≤ i) (h2 : i < hi) :
    L.countP (fun s => decide (s.startframe ≤ i) && decide (i ≤ s.endframe)) = 1 := by
  induction L generalizing lo with
  | nil =>
    rw [tiles] at h
    omega
  | cons s r ih =>
    rw [tiles] at h
    obtain ⟨hs, hse, hr⟩ := h
    rw [List.countP_cons]
    by_cases hcov : i ≤ s.endframe
    · have hstart : s.startframe ≤ i := by omega
      rw [tiles_countP_zero r (s.endframe + 1) hi hr i (by omega)]
      simp [hstart, hcov]
    · rw [ih (s.endframe + 1) hr (by omega)]
      simp [hcov]

/-- C1 (amended): before boundary growth, the merged segments written by
`merge_segments` are ordered, contiguous and non-overlapping, but they cover
exactly the long-frame indices `[0, lastRunStart labels)` — the phase-2 loop
(`for (seg = 0; seg < current_segment; seg++)`) never processes the last
detected run, so the frames of the final run are not covered; each index
below the last run's start is covered exactly once. -/
theorem merged_tiles_up_to_last_run (labels : List Bool) (has_intro junk : Bool)
    (h : labels ≠ []) :
    tiles (mergedPreGrowth labels has_intro junk) 0 (lastRunStart labels) ∧
    ∀ i : Int, 0 ≤ i → i < lastRunStart labels →
      (mergedPreGrowth labels has_intro junk).countP
        (fun s => decide (s.startframe ≤ i) && decide (i ≤ s.endframe)) = 1 := by
  have hruns : tiles (phase1 labels) 0 (labels.length : ℤ) := phase1_tiles labels h
  have hne : phase1 labels ≠ [] := by
    intro hnil
    rw [hnil, tiles] at hruns
    have hz : labels.length = 0 := by exact_mod_cast hruns.symm
    exact h (List.length_eq_zero.mp hz)
  have hlastD : (phase1 labels).getLastD ⟨0, 0, true⟩ = (phase1 labels).getLast hne := by
    rw [List.getLastD_eq_getLast?, List.getLast?_eq_getLast _ hne]
    rfl
  have hdecomp : (phase1 labels).dropLast ++ [(phase1 labels).getLast hne] = phase1 labels :=
    List.dropLast_append_getLast hne
  rw [← hdecomp, tiles_snoc_iff] at hruns
  obtain ⟨hdl, hlast, hN⟩ := hruns
  have hdl' : tiles (phase1 labels).dropLast 0 (lastRunStart labels) := by
    rw [lastRunStart, hlastD]
    exact hdl
  have htiles : tiles (mergedPreGrowth labels has_intro junk) 0 (lastRunStart labels) := by
    rw [mergedPreGrowth]
    rcases hd : (phase1 labels).dropLast with _ | ⟨r0, rest⟩
    · rw [hd] at hdl'
      exact hdl'
    · rw [hd] at hdl'
      rw [tiles] at hdl'
      obtain ⟨hr0s, hr0e, hrest⟩ := hdl'
      refine foldl_mergeStep_tiles rest [] (initMerged r0 has_intro junk)
        (r0.endframe + 1) (lastRunStart labels) ?_ hrest
      rw [tiles_snoc_iff]
      refine ⟨hr0s.symm, ?_, rfl⟩
      show r0.startframe ≤ r0.endframe
      omega
  exact ⟨htiles, fun i hi0 hiL => tiles_countP_one _ _ _ htiles i hi0 hiL⟩

/-- Witness for C1 (amended) at the two-label input `[true, false]`. -/
theorem merged_tiles_witness :
    ([true, false] : List Bool) ≠ [] ∧
    (tiles (mergedPreGrowth [true, false] false true) 0 (lastRunStart [true, false]) ∧
    ∀ i : Int, 0 ≤ i → i < lastRunStart [true, false] →
      (mergedPreGrowth [true, false] false true).countP
        (fun s => decide (s.startframe ≤ i) && decide (i ≤ s.endframe)) = 1) :=
  ⟨by decide, merged_tiles_up_to_last_run [true, false] false true (by decide)⟩

/-- C1 counterexample: on the two-label input `[true, false]` the label
sequence has length 2, yet no pre-growth merged segment covers long-frame
index 1 (the phase-2 loop dropped the final run `[1,1]`), so the merged
segments do not cover `[0, N_long)`. -/
theorem merged_coverage_counterexample :
    ([true, false] : List Bool).length = 2 ∧
    (mergedPreGrowth [true, false] false true).countP
      (fun s => decide (s.startframe ≤ (1 : Int)) && decide ((1 : Int) ≤ s.endframe)) = 0 := by
  exact ⟨by decide, by decide⟩

/-- The smoother claimed by the spec sentence behind C2: interior indices get
the rounded average of the seven surrounding labels (division by 7), and the
three leading / three trailing outputs are forced to `true` / `false`. -/
def claimedSmoother (labels : List Bool) : List Bool :=
  (List.range labels.length).map (fun i =>
    if i ≤ 2 then true
    else if labels.length - 3 ≤ i then false
    else decide ((round ((windowCount labels i : ℚ) / 7) : ℤ) ≠ 0))

theorem windowCount_le_seven (labels : List Bool) (i : ℕ) : windowCount labels i ≤ 7 :=
  le_trans (List.count_le_length _ _) (List.length_take_le _ _)

theorem round_div_five_ne_zero (c : ℕ) (hc : c ≤ 7) :
    ((round ((c : ℚ) / 5) : ℤ) ≠ 0) ↔ 3 ≤ c := by
  interval_cases c <;> norm_num [round_eq]

theorem average_musicness_getElem (labels : List Bool) (junk : ℕ → Bool) (i : ℕ)
    (hi : i < labels.length) :
    (average_musicness labels junk)[i]? = some (scratchVal labels junk i) := by
  rw [average_musicness, List.getElem?_map, List.getElem?_range hi]
  rfl

/-- C2 (amended): for `N ≥ 7` the smoother sets each interior output
(indices `3 … N-4`) to `rint(sum/5.0)` of the seven labels at `i-3 … i+3`,
which is `true` exactly when at least 3 of the 7 are `true` (a different
function from the rounded 7-average the claim states, which needs at least
4); it forces outputs `0`, `1`, `2` to `true`, but of the trailing outputs
only `N-2` and `N-1` are forced `false` — output `N-3` is copied from the
unassigned scratch slot `junk (N-3)`. -/
theorem smoother_amended (labels : List Bool) (junk : ℕ → Bool)
    (h7 : 7 ≤ labels.length) :
    (average_musicness labels junk).length = labels.length ∧
    (average_musicness labels junk)[0]? = some true ∧
    (average_musicness labels junk)[1]? = some true ∧
    (average_musicness labels junk)[2]? = some true ∧
    (∀ i, 3 ≤ i → i + 4 ≤ labels.length →
      (average_musicness labels junk)[i]? = some (decide (3 ≤ windowCount labels i))) ∧
    (average_musicness labels junk)[labels.length - 3]? = some (junk (labels.length - 3)) ∧
    (average_musicness labels junk)[labels.length - 2]? = some false ∧
    (average_musicness labels junk)[labels.length - 1]? = some false := by
  have hlen : (average_musicness labels junk).length = labels.length := by
    simp [average_musicness]
  refine ⟨hlen, ?_, ?_, ?_, ?_, ?_, ?_, ?_⟩
  · rw [average_musicness_getElem labels junk 0 (by omega), scratchVal]
    split_ifs <;> first | rfl | omega
  · rw [average_musicness_getElem labels junk 1 (by omega), scratchVal]
    split_ifs <;> first | rfl | omega
  · rw [average_musicness_getElem labels junk 2 (by omega), scratchVal]
    split_ifs <;> first | rfl | omega
  · intro i h3 h4
    rw [average_musicness_getElem labels junk i (by omega), scratchVal]
    split_ifs with hA hB hC hD hE
    · omega
    · omega
    · omega
    · rw [smoothInterior]
      congr 1
      exact decide_eq_decide.mpr (round_div_five_ne_zero _ (windowCount_le_seven labels i))
    · omega
    · omega
  · rw [average_musicness_getElem labels junk (labels.length - 3) (by omega), scratchVal]
    split_ifs <;> first | rfl | omega
  · rw [average_musicness_getElem labels junk (labels.length - 2) (by omega), scratchVal]
    split_ifs <;> first | rfl | omega
  · rw [average_musicness_getElem labels junk (labels.length - 1) (by omega), scratchVal]
    split_ifs <;> first | rfl | omega

/-- Witness for C2 (amended) at the concrete sequence of seven `true`s. -/
theorem smoother_amended_witness :
    7 ≤ (List.replicate 7 true).length ∧
    ((average_musicness (List.replicate 7 true) (fun _ => false)).length =
      (List.replicate 7 true).length ∧
    (average_musicness (List.replicate 7 true) (fun _ => false))[0]? = some true ∧
    (average_musicness (List.replicate 7 true) (fun _ => false))[1]? = some true ∧
    (average_musicness (List.replicate 7 true) (fun _ => false))[2]? = some true ∧
    (∀ i, 3 ≤ i → i + 4 ≤ (List.replicate 7 true).length →
      (average_musicness (List.replicate 7 true) (fun _ => false))[i]? =
        some (decide (3 ≤ windowCount (List.replicate 7 true) i))) ∧
    (average_musicness (List.replicate 7 true) (fun _ => false))[(List.replicate 7 true).length - 3]? =
      some ((fun _ => false) ((List.replicate 7 true).length - 3)) ∧
    (average_musicness (List.replicate 7 true) (fun _ => false))[(List.replicate 7 true).length - 2]? =
      some false ∧
    (average_musicness (List.replicate 7 true) (fun _ => false))[(List.replicate 7 true).length - 1]? =
      some false) :=
  ⟨by simp, smoother_amended (List.replicate 7 true) (fun _ => false) (by simp)⟩

/-- C2 counterexample: on the seven-label input `[F,F,F,T,T,T,F]` (with the
uninitialised scratch storage all-`true`) the smoother emits
`[T,T,T,T,T,F,F]`, while the claimed rounded-7-average/forced-boundary
filter emits `[T,T,T,F,F,F,F]`: they disagree at index 3 (three of seven
labels set rounds up under the code's `/5.0`, down under the claimed `/7`)
and at index 4 (`N-3`, which the code leaves unassigned instead of forcing
`false`). -/
theorem smoother_counterexample :
    average_musicness [false, false, false, true, true, true, false] (fun _ => true) =
      [true, true, true, true, true, false, false] ∧
    claimedSmoother [false, false, false, true, true, true, false] =
      [true, true, true, false, false, false, false] ∧
    average_musicness [false, false, false, true, true, true, false] (fun _ => true) ≠
      claimedSmoother [false, false, false, true, true, true, false] := by
  refine ⟨?_, ?_, ?_⟩
  · norm_num [average_musicness, List.range_succ, scratchVal, smoothInterior, windowCount,
      round_eq]
  · norm_num [claimedSmoother, List.range_succ, windowCount, round_eq]
  · norm_num [average_musicness, claimedSmoother, List.range_succ, scratchVal, smoothInterior,
      windowCount, round_eq]

/-- C9: for `N ≥ 7` the interior smoothing loop stops at index `N-4` and the
explicit trailing writes hit indices `N`, `N-1`, `N-2`, so the label copied
back to output index `N-3` is the unassigned scratch content `junk (N-3)`
(not a function of the input labels), and the write at index `N` lands one
slot past the logical sequence end (it stores `false` there). -/
theorem smoother_reads_unassigned (labels : List Bool) (junk : ℕ → Bool)
    (h7 : 7 ≤ labels.length) :
    (average_musicness labels junk)[labels.length - 3]? =
      some (junk (labels.length - 3)) ∧
    scratchVal labels junk labels.length = false := by
  constructor
  · rw [average_musicness_getElem labels junk (labels.length - 3) (by omega), scratchVal]
    split_ifs <;> first | rfl | omega
  · rw [scratchVal]
    split_ifs <;> first | rfl | omega

/-- Witness for C9 at seven alternating labels with scratch junk `true` at
even indices: output index 4 reads `junk 4 = true`. -/
theorem smoother_reads_unassigned_witness :
    7 ≤ ([true, false, true, false, true, false, true] : List Bool).length ∧
    ((average_musicness [true, false, true, false, true, false, true]
        (fun i => decide (i % 2 = 0)))[([true, false, true, false, true, false, true] : List Bool).length - 3]? =
      some ((fun i => decide (i % 2 = 0))
        (([true, false, true, false, true, false, true] : List Bool).length - 3)) ∧
    scratchVal [true, false, true, false, true, false, true] (fun i => decide (i % 2 = 0))
      ([true, false, true, false, true, false, true] : List Bool).length = false) :=
  ⟨by simp, smoother_reads_unassigned [true, false, true, false, true, false, true]
    (fun i => decide (i % 2 = 0)) (by simp)⟩

/-- C5 (amended): `merge_segments` returns the final value of the
`current_merged_segment` counter, which is one less than the number of
merged segments written whenever phase 2 writes at least one (i.e. at least
two runs were detected); the claim as stated (return value equals the count)
is off by one. -/
theorem merge_ret_succ (labels : List Bool) (has_intro junk : Bool)
    (hne : (phase1 labels).dropLast ≠ []) :
    merge_segments_ret labels has_intro junk + 1 =
      (mergedPreGrowth labels has_intro junk).length := by
  rcases hd : (phase1 labels).dropLast with _ | ⟨r0, rest⟩
  · exact absurd hd hne
  · rw [merge_segments_ret, mergedPreGrowth, hd]
    simp

/-- Witness for C5 (amended) at the two-label input `[true, false]`. -/
theorem merge_ret_succ_witness :
    (phase1 [true, false]).dropLast ≠ [] ∧
    merge_segments_ret [true, false] false true + 1 =
      (mergedPreGrowth [true, false] false true).length :=
  ⟨by decide, merge_ret_succ [true, false] false true (by decide)⟩

/-- C5 counterexample: on `[true, false]` phase 2 writes exactly one merged
segment but `merge_segments` returns `0`. -/
theorem merge_ret_counterexample :
    merge_segments_ret [true, false] false true = 0 ∧
    (mergedPreGrowth [true, false] false true).length = 1 ∧
    merge_segments_ret [true, false] false true ≠
      (mergedPreGrowth [true, false] false true).length := by
  refine ⟨by decide, by decide, by decide⟩

/-- The phase-2 step claimed by the spec sentence behind C4: a run of fewer
than 10 long frames (`endframe - startframe + 1 < 10`) is absorbed; a run of
10 or more frames with the same label as the previous merged segment is
absorbed; any other run starts a new merged segment. -/
def mergeStepClaimed (st : List Segment × Segment) (s : Segment) : List Segment × Segment :=
  if s.endframe - s.startframe + 1 < 10 then (st.1, { st.2 with endframe := s.endframe })
  else if s.is_music = st.2.is_music then (st.1, { st.2 with endframe := s.endframe })
  else (st.1 ++ [st.2], s)

/-- Phase 2 exactly as the C4 claim states it (only the length test differs
from `mergedPreGrowth`). -/
def mergedPreGrowthClaimed (labels : List Bool) (has_intro junk : Bool) : List Segment :=
  match (phase1 labels).dropLast with
  | [] => []
  | r0 :: rest =>
    let st := rest.foldl mergeStepClaimed ([], initMerged r0 has_intro junk)
    st.1 ++ [st.2]

/-- The phase-2 step as amended: the C test `endframe - startframe < 10`
absorbs every run spanning at most 10 long frames (not only those spanning
fewer than 10); runs of 11 or more frames are absorbed exactly when their
label matches, and otherwise start a new merged segment. -/
def mergeStepAmended (st : List Segment × Segment) (s : Segment) : List Segment × Segment :=
  if s.endframe - s.startframe + 1 ≤ 10 then (st.1, { st.2 with endframe := s.endframe })
  else if s.is_music = st.2.is_music then (st.1, { st.2 with endframe := s.endframe })
  else (st.1 ++ [st.2], s)

/-- Phase 2 as the amended claim states it. -/
def mergedPreGrowthAmended (labels : List Bool) (has_intro junk : Bool) : List Segment :=
  match (phase1 labels).dropLast with
  | [] => []
  | r0 :: rest =>
    let st := rest.foldl mergeStepAmended ([], initMerged r0 has_intro junk)
    st.1 ++ [st.2]

theorem mergeStep_eq_amended : mergeStep = mergeStepAmended := by
  funext st s
  rw [mergeStep, mergeStepAmended]
  have : (s.endframe - s.startframe < 10) ↔ (s.endframe - s.startframe + 1 ≤ 10) := by omega
  by_cases hlen : s.endframe - s.startframe < 10
  · rw [if_pos hlen, if_pos (this.mp hlen)]
  · rw [if_neg hlen, if_neg (fun hc => hlen (this.mpr hc))]

/-- C4 (amended): phase 2 of `merge_segments` absorbs every run spanning at
most 10 long frames (the C test is `endframe - startframe < 10`, i.e. run
length `≤ 10`) into the preceding merged segment regardless of label,
absorbs longer runs whose label equals the previous merged segment's label,
and starts a new merged segment for any run of 11 or more frames with a
differing label. -/
theorem merge_phase2_amended (labels : List Bool) (has_intro junk : Bool) :
    mergedPreGrowth labels has_intro junk = mergedPreGrowthAmended labels has_intro junk := by
  rw [mergedPreGrowth, mergedPreGrowthAmended, mergeStep_eq_amended]

/-- C4 counterexample: after eleven `true` labels, a run of exactly 10
`false` labels (run `[11, 20]`, differing label) is absorbed by the code —
`mergedPreGrowth` yields the single segment `[0, 20]` — whereas the claimed
rule ("10 or more frames with a differing label starts a new merged
segment") yields two segments `[0, 10]` and `[11, 20]`. -/
theorem merge_phase2_counterexample :
    mergedPreGrowth (List.replicate 11 true ++ List.replicate 10 false ++ [true]) false true =
      [⟨0, 20, true⟩] ∧
    mergedPreGrowthClaimed (List.replicate 11 true ++ List.replicate 10 false ++ [true])
        false true =
      [⟨0, 10, true⟩, ⟨11, 20, false⟩] ∧
    mergedPreGrowth (List.replicate 11 true ++ List.replicate 10 false ++ [true]) false true ≠
      mergedPreGrowthClaimed (List.replicate 11 true ++ List.replicate 10 false ++ [true])
        false true := by
  exact ⟨by decide, by decide, by decide⟩

theorem foldl_mergeStep_headD (rs : List Segment) (acc : List Segment) (cur d : Segment) :
    (((rs.foldl mergeStep (acc, cur)).1 ++
        [(rs.foldl mergeStep (acc, cur)).2]).headD d).is_music =
      ((acc ++ [cur]).headD d).is_music := by
  induction rs generalizing acc cur with
  | nil => rfl
  | cons s r ih =>
    rw [List.foldl_cons, mergeStep]
    split_ifs
    · exact (ih acc { cur with endframe := s.endframe }).trans (by cases acc <;> rfl)
    · exact (ih acc { cur with endframe := s.endframe }).trans (by cases acc <;> rfl)
    · exact (ih (acc ++ [cur]) s).trans (by cases acc <;> rfl)

/-- C10: when `has_intro` is `false`, phase 2 of `merge_segments` never
writes `merged_segments[0].is_music` — the first merged segment's label is
exactly the value `junk` the caller-provided storage already held — and
the phase-2 absorption decisions that compare against it make the output
depend on that storage: on eleven `true`s, eleven `false`s and a final
`true`, storage content `true` yields two merged segments while `false`
yields one. -/
theorem merged_first_label_from_junk (labels : List Bool) (junk : Bool)
    (h : (phase1 labels).dropLast ≠ []) :
    (mergedPreGrowth labels false junk ≠ [] ∧
      ((mergedPreGrowth labels false junk).headD ⟨0, 0, true⟩).is_music = junk) ∧
    mergedPreGrowth (List.replicate 11 true ++ List.replicate 11 false ++ [true]) false true ≠
      mergedPreGrowth (List.replicate 11 true ++ List.replicate 11 false ++ [true])
        false false := by
  refine ⟨?_, by decide⟩
  rw [mergedPreGrowth]
  rcases hd : (phase1 labels).dropLast with _ | ⟨r0, rest⟩
  · exact absurd hd h
  · constructor
    · simp
    · rw [foldl_mergeStep_headD rest [] (initMerged r0 false junk) ⟨0, 0, true⟩]
      rfl

/-- Witness for C10 at the two-label input `[true, false]`. -/
theorem merged_first_label_witness :
    (phase1 [true, false]).dropLast ≠ [] ∧
    ((mergedPreGrowth [true, false] false true ≠ [] ∧
      ((mergedPreGrowth [true, false] false true).headD ⟨0, 0, true⟩).is_music = true) ∧
    mergedPreGrowth (List.replicate 11 true ++ List.replicate 11 false ++ [true]) false true ≠
      mergedPreGrowth (List.replicate 11 true ++ List.replicate 11 false ++ [true])
        false false) :=
  ⟨by decide, merged_first_label_from_junk [true, false] true (by decide)⟩

/-- Witness for C8 at the silent block `[0, 0]` with block size 2. -/
theorem mler_formula_and_range_witness :
    0 < 2 ∧ ([(0 : ℚ), 0]).length = 2 ∧
    (mlerOfBlock [0, 0] 2 =
      (([(0 : ℚ), 0]).map
        (fun v => signum (LOW_ENERGY_COEFFICIENT * meanOfBlock [0, 0] 2 - v) + 1)).sum /
        (2 * 2) ∧
    0 ≤ mlerOfBlock [0, 0] 2 ∧ mlerOfBlock [0, 0] 2 ≤ 1) :=
  ⟨by norm_num, by simp, mler_formula_and_range [0, 0] 2 (by norm_num) (by simp)⟩

theorem calculate_rms_silence (m F C : ℕ) :
    calculate_rms (List.replicate m (0 : ℝ)) F C = List.replicate C 0 := by
  rw [calculate_rms, List.eq_replicate_iff]
  constructor
  · simp
  · intro b hb
    simp only [List.mem_map, List.mem_range] at hb
    obtain ⟨j, hj, rfl⟩ := hb
    rw [List.drop_replicate, List.take_replicate]
    simp

theorem blockOf_silence (B N lf : ℕ) (hlf : lf < N) :
    blockOf (List.replicate (N * B) (0 : ℚ)) B lf = List.replicate B 0 := by
  rw [blockOf, List.drop_replicate, List.take_replicate]
  congr 1
  have hle : B ≤ N * B - lf * B := by
    calc B = 1 * B := (one_mul B).symm
    _ ≤ (N - lf) * B := Nat.mul_le_mul_right B (by omega)
    _ = N * B - lf * B := by rw [Nat.sub_mul]
  rw [min_eq_left hle]

theorem mler_silence (B : ℕ) (hB : 0 < B) :
    mlerOfBlock (List.replicate B (0 : ℚ)) B = 1/2 := by
  rw [mlerOfBlock, featLoop_snd]
  simp only [meanOfBlock, List.sum_replicate, smul_zero, zero_div, mul_zero,
    List.map_replicate, zero_sub, neg_zero, signum]
  norm_num
  have hBq : ((B : ℚ)) ≠ 0 := by positivity
  field_simp
  ring

/-- C6: on pure silence every RMS value is `sqrt(0/20) = 0`, every silent
block's MLER is the determinate value `1/2` (the mean is `0`, so
`lowthres = 0` and every summand is `signum 0 + 1 = 1`; the only division on
the MLER path is by `2 * B ≠ 0`), and the classifier with
`music_threshold = 0` yields the determinate label `false` (speech) for
every long frame — no crash and no NaN-dependent label.  (The unrelated
`normalized_variance` feature does divide `0/0` on silence, but it is never
read by the classifier.) -/
theorem silence_defined_labels (m F C B N : ℕ) (hB : 0 < B) :
    calculate_rms (List.replicate m (0 : ℝ)) F C = List.replicate C 0 ∧
    ∀ lf, lf < N →
      (calculate_features_mler (List.replicate (N * B) (0 : ℚ)) B N)[lf]? = some (1/2) ∧
      (classify_segments (calculate_features_mler (List.replicate (N * B) (0 : ℚ)) B N))[lf]? =
        some false := by
  refine ⟨calculate_rms_silence m F C, fun lf hlf => ?_⟩
  have hmler : (calculate_features_mler (List.replicate (N * B) (0 : ℚ)) B N)[lf]? =
      some (1/2) := by
    rw [calculate_features_mler, List.getElem?_map, List.getElem?_range hlf]
    rw [Option.map_some', blockOf_silence B N lf hlf, mler_silence B hB]
  refine ⟨hmler, ?_⟩
  rw [classify_segments, List.getElem?_map, hmler]
  norm_num [UPPER_MUSIC_THRESHOLD]

/-- Witness for C6 with one long frame of one RMS frame. -/
theorem silence_defined_labels_witness :
    0 < 1 ∧
    (calculate_rms (List.replicate 0 (0 : ℝ)) 1 1 = List.replicate 1 0 ∧
    ∀ lf, lf < 1 →
      (calculate_features_mler (List.replicate (1 * 1) (0 : ℚ)) 1 1)[lf]? = some (1/2) ∧
      (classify_segments (calculate_features_mler (List.replicate (1 * 1) (0 : ℚ)) 1 1))[lf]? =
        some false) :=
  ⟨by norm_num, silence_defined_labels 0 1 1 1 1 (by norm_num)⟩

/-- C7: the RMS extractor is homogeneous of degree 1 in amplitude — scaling
every input sample by `k ≥ 0` scales every output RMS value by exactly `k`
(the per-frame sum of squares scales by `k²`, and `sqrt(k² · x) = k·sqrt x`
for `k ≥ 0`). -/
theorem calculate_rms_homogeneous (samples : List ℝ) (k : ℝ) (hk : 0 ≤ k) (F C : ℕ) :
    calculate_rms (samples.map (fun s => k * s)) F C =
      (calculate_rms samples F C).map (fun r => k * r) := by
  rw [calculate_rms, calculate_rms, List.map_map]
  refine congrArg (fun f => List.map f (List.range C)) (funext fun j => ?_)
  rw [← List.map_drop, ← List.map_take, List.map_map]
  simp only [Function.comp_def, mul_pow]
  rw [List.sum_map_mul_left ((samples.drop (j * F)).take F) (fun s => s ^ 2) (k ^ 2)]
  rw [mul_div_assoc, Real.sqrt_mul (sq_nonneg k), Real.sqrt_sq hk]

/-- Witness for C7 at `k = 2` on the one-sample stream `[3]`. -/
theorem calculate_rms_homogeneous_witness :
    (0 : ℝ) ≤ 2 ∧
    calculate_rms ([(3 : ℝ)].map (fun s => 2 * s)) 1 1 =
      (calculate_rms [(3 : ℝ)] 1 1).map (fun r => 2 * r) :=
  ⟨by norm_num, calculate_rms_homogeneous [(3 : ℝ)] 2 (by norm_num) 1 1⟩

end PodcastGen
